import Mathlib

/-
Verification of `partiell.py`: an enhanced partial-application utility
where the Ellipsis object `...` acts as a placeholder splitting positional
arguments into a left part and a right part.

We shallowly embed the Python values relevant to the library.  A `Value`
is a Python object: the Ellipsis singleton, `None`, opaque non-callable
data, opaque callable functions (identified by an index), tuples, tuple
subclasses, non-tuple sequences (lists), dicts, dict subclasses, and
Applied-Call instances (the `partiell` class).  `AppliedCall` mirrors the
slots of the class: `func`, `largs`, `rargs`, `keywords`, and `__dict__`
(auxiliary namespace storage).

Final invocation of an opaque target cannot be executed, so invocation
returns a symbolic `CallResult.final target args kwargs` recording exactly
the call that the code performs and whose result it returns verbatim.
-/

mutual

inductive Value : Type where
  | ellipsis : Value
  | pynone : Value
  | base : Nat → Value
  | fn : Nat → Value
  | tuple : List Value → Value
  | tupleSub : List Value → Value
  | list : List Value → Value
  | dictV : List (String × Value) → Value
  | dictSub : List (String × Value) → Value
  | part : AppliedCall → Value

inductive AppliedCall : Type where
  | mk (func : Value) (largs : List Value) (rargs : List Value)
       (keywords : List (String × Value)) (dict : List (String × Value)) : AppliedCall

end

/-- A Python dict with string keys, as an insertion-ordered association
list with unique keys. -/
abbrev Dict := List (String × Value)

def AppliedCall.func : AppliedCall → Value
  | .mk f _ _ _ _ => f

def AppliedCall.largs : AppliedCall → List Value
  | .mk _ l _ _ _ => l

def AppliedCall.rargs : AppliedCall → List Value
  | .mk _ _ r _ _ => r

def AppliedCall.keywords : AppliedCall → Dict
  | .mk _ _ _ k _ => k

def AppliedCall.dict : AppliedCall → Dict
  | .mk _ _ _ _ d => d

/-- `arg is Ellipsis`: identity comparison against the Ellipsis singleton. -/
def isEllipsis : Value → Bool
  | .ellipsis => true
  | _ => false

/-- `callable(v)`: functions are callable, and Applied-Call instances are
callable because the class defines `__call__`. -/
def isCallableV : Value → Bool
  | .fn _ => true
  | .part _ => true
  | _ => false

/-- `hasattr(v, "func")`: among the modelled values, only Applied-Call
instances carry a `func` attribute. -/
def hasFuncAttr : Value → Bool
  | .part _ => true
  | _ => false

/-- `isinstance(v, tuple)`: true for tuples and tuple subclasses. -/
def isTupleInst : Value → Bool
  | .tuple _ => true
  | .tupleSub _ => true
  | _ => false

/-- Whether `v` is a Python sequence (tuple, tuple subclass, or list). -/
def isSequenceInst : Value → Bool
  | .tuple _ => true
  | .tupleSub _ => true
  | .list _ => true
  | _ => false

/-- `v is None or isinstance(v, dict)`. -/
def isNoneOrDict : Value → Bool
  | .pynone => true
  | .dictV _ => true
  | .dictSub _ => true
  | _ => false

/-- `tuple(v)` for a tuple or tuple subclass: its element list. -/
def tupleElems : Value → List Value
  | .tuple xs => xs
  | .tupleSub xs => xs
  | _ => []

/-- Restore a keywords/namespace field: `None` becomes the empty dict,
a dict or dict subclass yields its entries (a plain-dict copy). -/
def dictPairs : Value → Dict
  | .pynone => []
  | .dictV kvs => kvs
  | .dictSub kvs => kvs
  | _ => []

/-- Dict key lookup: first entry with the given key. -/
def dictLookup (d : Dict) (k : String) : Option Value :=
  match d with
  | [] => none
  | (k2, v) :: rest => if k2 = k then some v else dictLookup rest k

/-- `\x7b**a, **b\x7d`: keys of `a` in order, values overridden by `b`
where present, followed by the keys of `b` not occurring in `a`. -/
def dictMerge (a b : Dict) : Dict :=
  a.map (fun kv =>
    match dictLookup b kv.1 with
    | some w => (kv.1, w)
    | none => kv)
  ++ b.filter (fun kv => (dictLookup a kv.1).isNone)

/-- Errors raised by the library, all `TypeError` in Python. -/
inductive PErr : Type where
  | notCallable : PErr
  | multiplePlaceholders : PErr
  | stateNotTuple : PErr
  | stateWrongLen : Nat → PErr
  | invalidState : PErr

/-- Number of Ellipsis occurrences in a positional argument list. -/
def countEll : List Value → Nat
  | [] => 0
  | a :: rest => (if isEllipsis a then 1 else 0) + countEll rest

/-- The early-returning scan in `__call__`: does any positional argument
compare `is Ellipsis`? -/
def containsEll : List Value → Bool
  | [] => false
  | a :: rest => if isEllipsis a then true else containsEll rest

/-- The scanning loop of `__new__`: walk the arguments carrying the index
of the Ellipsis found so far; a second occurrence raises. -/
def findEll : List Value → Nat → Option Nat → Except PErr (Option Nat)
  | [], _, acc => .ok acc
  | a :: rest, i, acc =>
    if isEllipsis a then
      match acc with
      | none => findEll rest (i + 1) (some i)
      | some _ => .error .multiplePlaceholders
    else
      findEll rest (i + 1) acc

/-- Split the positional arguments of `__new__` into the left and right
parts around the (at most one) Ellipsis. -/
def splitArgs (args : List Value) : Except PErr (List Value × List Value) :=
  match findEll args 0 none with
  | .error e => .error e
  | .ok none => .ok (args, [])
  | .ok (some i) => .ok (args.take i, args.drop (i + 1))

/-- `partiell.partial.__new__`: check the target is callable, split the
arguments around the placeholder, and flatten when the target itself has a
`func` attribute (i.e. is an Applied-Call). -/
def AppliedCall.new (func : Value) (args : List Value) (keywords : Dict) :
    Except PErr AppliedCall :=
  if isCallableV func = false then .error .notCallable
  else
    match splitArgs args with
    | .error e => .error e
    | .ok (largs, rargs) =>
      match func with
      | .part p =>
          .ok (.mk p.func (p.largs ++ largs) (rargs ++ p.rargs)
                (dictMerge p.keywords keywords) [])
      | f => .ok (.mk f largs rargs keywords [])

/-- The outcome of `partiell.partial.__call__`: either a further partial
application producing a new Applied-Call, or a final invocation of the
stored target with the spliced positional arguments and merged keywords,
whose result is returned verbatim. -/
inductive CallResult : Type where
  | further : AppliedCall → CallResult
  | final : Value → List Value → Dict → CallResult

/-- `partiell.partial.__call__`: if any positional argument is the
Ellipsis, delegate to `__new__` with `self` as target; otherwise merge
keywords and invoke the target on `largs ++ args ++ rargs`. -/
def AppliedCall.call (self : AppliedCall) (args : List Value) (keywords : Dict) :
    Except PErr CallResult :=
  if containsEll args then
    match AppliedCall.new (.part self) args keywords with
    | .ok q => .ok (.further q)
    | .error e => .error e
  else
    .ok (.final self.func (self.largs ++ args ++ self.rargs)
          (dictMerge self.keywords keywords))

/-- The reconstruction recipe of `partiell.partial.__reduce__`: the
constructor argument tuple `(self.func,)` and the five-element state
tuple, with empty keyword and namespace dicts replaced by `None`. -/
structure Reduced : Type where
  ctorArgs : List Value
  state : Value

def AppliedCall.reduce (p : AppliedCall) : Reduced :=
  ⟨[p.func],
   .tuple [p.func, .tuple p.largs, .tuple p.rargs,
           if p.keywords.isEmpty then .pynone else .dictV p.keywords,
           if p.dict.isEmpty then .pynone else .dictV p.dict]⟩

/-- The body of `__setstate__` after the `isinstance(state, tuple)` check:
length check, destructuring, field validation, coercion, and slot
assignment. -/
def setstateElems (elems : List Value) : Except PErr AppliedCall :=
  match elems with
  | [func, largsV, rargsV, kwdsV, nsV] =>
    if isCallableV func = false then .error .invalidState
    else if isTupleInst largsV = false then .error .invalidState
    else if isTupleInst rargsV = false then .error .invalidState
    else if isNoneOrDict kwdsV = false then .error .invalidState
    else if isNoneOrDict nsV = false then .error .invalidState
    else .ok (.mk func (tupleElems largsV) (tupleElems rargsV)
               (dictPairs kwdsV) (dictPairs nsV))
  | _ => .error (.stateWrongLen elems.length)

/-- `partiell.partial.__setstate__`: validate the state tuple (tuple
subclasses pass `isinstance`) and overwrite every slot of the instance.
All five slots are replaced, so the result does not depend on the prior
contents of `self`. -/
def AppliedCall.setstate (_self : AppliedCall) (state : Value) :
    Except PErr AppliedCall :=
  match state with
  | .tuple elems => setstateElems elems
  | .tupleSub elems => setstateElems elems
  | _ => .error .stateNotTuple

/-! ### Supporting lemmas -/

lemma dictLookup_append (a b : Dict) (k : String) :
    dictLookup (a ++ b) k =
      match dictLookup a k with
      | some v => some v
      | none => dictLookup b k := by
  induction a with
  | nil => simp [dictLookup]
  | cons kv rest ih =>
    obtain ⟨k2, v⟩ := kv
    by_cases h : k2 = k <;> simp [dictLookup, h, ih]

lemma dictLookup_mapOverride (a b : Dict) (k : String) :
    dictLookup (a.map (fun kv =>
      match dictLookup b kv.1 with
      | some w => (kv.1, w)
      | none => kv)) k =
      match dictLookup a k with
      | some v => some (match dictLookup b k with | some w => w | none => v)
      | none => none := by
  induction a with
  | nil => simp [dictLookup]
  | cons kv rest ih =>
    obtain ⟨k2, v⟩ := kv
    by_cases h : k2 = k
    · subst h
      cases hb : dictLookup b k2 <;> simp [dictLookup, hb]
    · cases hb : dictLookup b k2 <;> simp [dictLookup, hb, h, ih]

lemma dictLookup_filterNotIn (l a : Dict) (k : String) :
    dictLookup (l.filter (fun kv => (dictLookup a kv.1).isNone)) k =
      if (dictLookup a k).isNone then dictLookup l k else none := by
  induction l with
  | nil => simp [dictLookup]
  | cons kv rest ih =>
    obtain ⟨k2, v⟩ := kv
    by_cases h : k2 = k
    · subst h
      cases ha : dictLookup a k2 <;>
        simp [List.filter_cons, dictLookup, ha, ih]
    · cases ha2 : dictLookup a k2 <;>
        simp [List.filter_cons, dictLookup, ha2, h, ih]

/-- Key-level semantics of the dict merge: a key bound in `b` gets the
value from `b`, otherwise the value from `a` (if any). -/
lemma dictLookup_merge (a b : Dict) (k : String) :
    dictLookup (dictMerge a b) k =
      match dictLookup b k with
      | some w => some w
      | none => dictLookup a k := by
  unfold dictMerge
  rw [dictLookup_append, dictLookup_mapOverride, dictLookup_filterNotIn]
  cases ha : dictLookup a k <;> cases hb : dictLookup b k <;> simp [ha, hb]

lemma findEll_noEll (args : List Value) (h : countEll args = 0) (i : Nat)
    (acc : Option Nat) : findEll args i acc = .ok acc := by
  induction args generalizing i with
  | nil => rfl
  | cons a rest ih =>
    cases he : isEllipsis a with
    | true => simp [countEll, he] at h
    | false =>
      simp [countEll, he] at h
      simp [findEll, he]
      exact ih h _

lemma findEll_second (args : List Value) (h : 1 ≤ countEll args) (i j : Nat) :
    findEll args i (some j) = .error .multiplePlaceholders := by
  induction args generalizing i with
  | nil => simp [countEll] at h
  | cons a rest ih =>
    cases he : isEllipsis a with
    | true => simp [findEll, he]
    | false =>
      simp [countEll, he] at h
      simp [findEll, he]
      exact ih h _

lemma findEll_two (args : List Value) (h : 2 ≤ countEll args) (i : Nat) :
    findEll args i none = .error .multiplePlaceholders := by
  induction args generalizing i with
  | nil => simp [countEll] at h
  | cons a rest ih =>
    cases he : isEllipsis a with
    | true =>
      simp only [countEll, he, if_true] at h
      simp only [findEll, he, if_true]
      exact findEll_second rest (by omega) _ _
    | false =>
      simp [countEll, he] at h
      simp [findEll, he]
      exact ih h _

lemma findEll_one (pre post : List Value) (hpre : countEll pre = 0)
    (hpost : countEll post = 0) (i : Nat) :
    findEll (pre ++ Value.ellipsis :: post) i none = .ok (some (i + pre.length)) := by
  induction pre generalizing i with
  | nil =>
    simp only [List.nil_append, findEll, isEllipsis]
    rw [findEll_noEll post hpost]
    simp
  | cons a rest ih =>
    cases he : isEllipsis a with
    | true => simp [countEll, he] at hpre
    | false =>
      simp [countEll, he] at hpre
      simp only [List.cons_append, findEll, he, Bool.false_eq_true, if_false,
        List.append_eq]
      rw [ih hpre (i + 1)]
      simp only [Except.ok.injEq, Option.some.injEq, List.length_cons]
      omega

lemma splitArgs_noEll (args : List Value) (h : countEll args = 0) :
    splitArgs args = .ok (args, []) := by
  simp [splitArgs, findEll_noEll args h]

lemma splitArgs_oneEll (pre post : List Value) (hpre : countEll pre = 0)
    (hpost : countEll post = 0) :
    splitArgs (pre ++ Value.ellipsis :: post) = .ok (pre, post) := by
  simp only [splitArgs, findEll_one pre post hpre hpost 0, Nat.zero_add]
  have ht : (pre ++ Value.ellipsis :: post).take pre.length = pre := by
    simp
  have hd : (pre ++ Value.ellipsis :: post).drop (pre.length + 1) = post := by
    have : pre ++ Value.ellipsis :: post = (pre ++ [Value.ellipsis]) ++ post := by
      simp
    rw [this]
    have hlen : pre.length + 1 = (pre ++ [Value.ellipsis]).length := by simp
    rw [hlen]
    exact List.drop_left _ _
  rw [ht, hd]

lemma splitArgs_two (args : List Value) (h : 2 ≤ countEll args) :
    splitArgs args = .error .multiplePlaceholders := by
  simp [splitArgs, findEll_two args h]

lemma containsEll_false_iff (args : List Value) :
    containsEll args = false ↔ countEll args = 0 := by
  induction args with
  | nil => simp [containsEll, countEll]
  | cons a rest ih =>
    cases he : isEllipsis a <;> simp [containsEll, countEll, he, ih]

lemma dictMerge_empty (d : Dict) : dictMerge d [] = d := by
  simp [dictMerge, dictLookup]

/-- `__new__` on a target without a `func` attribute keeps the target and
stores the split argument lists and the keywords as given. -/
lemma new_nonPart (func : Value) (hc : isCallableV func = true)
    (hp : hasFuncAttr func = false) (args largs rargs : List Value) (kw : Dict)
    (hs : splitArgs args = .ok (largs, rargs)) :
    AppliedCall.new func args kw = .ok (.mk func largs rargs kw []) := by
  cases func <;> simp_all [AppliedCall.new, isCallableV, hasFuncAttr]

/-- `__new__` on an Applied-Call target flattens into the inner target. -/
lemma new_part (p : AppliedCall) (args largs rargs : List Value) (kw : Dict)
    (hs : splitArgs args = .ok (largs, rargs)) :
    AppliedCall.new (.part p) args kw =
      .ok (.mk p.func (p.largs ++ largs) (rargs ++ p.rargs)
            (dictMerge p.keywords kw) []) := by
  simp [AppliedCall.new, isCallableV, hs]

/-! ### Claim theorems -/

/-- Claim C1: for every Applied-Call and every invocation whose positional
arguments contain no placeholder, `__call__` invokes the target on
`largs ++ args ++ rargs` with the bound keywords updated by the newly
supplied keywords (new keys overriding matching bound keys) and returns
the target's result verbatim. -/
theorem C1_final_invocation (p : AppliedCall) (args : List Value) (kw : Dict)
    (h : containsEll args = false) :
    p.call args kw = .ok (.final p.func (p.largs ++ args ++ p.rargs)
        (dictMerge p.keywords kw)) ∧
    ∀ k, dictLookup (dictMerge p.keywords kw) k =
      match dictLookup kw k with
      | some w => some w
      | none => dictLookup p.keywords k := by
  constructor
  · simp [AppliedCall.call, h]
  · intro k
    exact dictLookup_merge p.keywords kw k

/-- Witness for C1: binding keyword `a=1` then calling with `a=2` and a
placeholder-free positional argument performs a final call with `a=2`. -/
theorem C1_final_invocation_witness :
    AppliedCall.call (.mk (.fn 0) [.base 1] [.base 3] [("a", .base 1)] [])
        [.base 2] [("a", .base 2)] =
      .ok (.final (.fn 0) [.base 1, .base 2, .base 3] [("a", .base 2)]) := by
  have h := (C1_final_invocation (.mk (.fn 0) [.base 1] [.base 3] [("a", .base 1)] [])
    [.base 2] [("a", .base 2)] rfl).1
  rw [h]
  rfl

/-- Claim C2: construction from a non-Applied-Call target stores all of
`args` as `largs` with empty `rargs` when no placeholder is present, and
stores `args[:i]` / `args[i+1:]` when the single placeholder sits at index
`i` (here `i = pre.length`). -/
theorem C2_construction_split (func : Value) (hc : isCallableV func = true)
    (hp : hasFuncAttr func = false) (kw : Dict) :
    (∀ args, countEll args = 0 →
      AppliedCall.new func args kw = .ok (.mk func args [] kw [])) ∧
    (∀ pre post, countEll pre = 0 → countEll post = 0 →
      AppliedCall.new func (pre ++ Value.ellipsis :: post) kw =
        .ok (.mk func pre post kw []) ∧
      pre = (pre ++ Value.ellipsis :: post).take pre.length ∧
      post = (pre ++ Value.ellipsis :: post).drop (pre.length + 1)) := by
  constructor
  · intro args h0
    exact new_nonPart func hc hp args args [] kw (splitArgs_noEll args h0)
  · intro pre post hpre hpost
    refine ⟨new_nonPart func hc hp _ pre post kw (splitArgs_oneEll pre post hpre hpost),
      ?_, ?_⟩
    · simp
    · have : pre ++ Value.ellipsis :: post = (pre ++ [Value.ellipsis]) ++ post := by
        simp
      rw [this]
      have hlen : pre.length + 1 = (pre ++ [Value.ellipsis]).length := by simp
      rw [hlen, List.drop_left]

/-- Witness for C2: `new f [1]` binds `[1]` on the left only, and
`new f [1, ..., 3]` splits into left `[1]` and right `[3]`. -/
theorem C2_construction_split_witness :
    AppliedCall.new (.fn 0) [.base 1] [] = .ok (.mk (.fn 0) [.base 1] [] [] []) ∧
    AppliedCall.new (.fn 0) [.base 1, .ellipsis, .base 3] [] =
      .ok (.mk (.fn 0) [.base 1] [.base 3] [] []) := by
  have h := C2_construction_split (.fn 0) rfl rfl []
  exact ⟨h.1 [.base 1] rfl, (h.2 [.base 1] [.base 3] rfl rfl).1⟩

/-- Claim C3: construction from an Applied-Call target flattens: the inner
left arguments come first, the inner right arguments come last, the inner
keywords are merged with (and overridden by) the new keywords, and the
resulting target is the inner Applied-Call's own target. -/
theorem C3_flattening (inner : AppliedCall) (args largs rargs : List Value)
    (kw : Dict) (hs : splitArgs args = .ok (largs, rargs)) :
    AppliedCall.new (.part inner) args kw =
      .ok (.mk inner.func (inner.largs ++ largs) (rargs ++ inner.rargs)
            (dictMerge inner.keywords kw) []) ∧
    ∀ k, dictLookup (dictMerge inner.keywords kw) k =
      match dictLookup kw k with
      | some w => some w
      | none => dictLookup inner.keywords k :=
  ⟨new_part inner args largs rargs kw hs,
   fun k => dictLookup_merge inner.keywords kw k⟩

/-- Witness for C3: wrapping an existing Applied-Call merges argument
lists around the new split and overrides the bound keyword. -/
theorem C3_flattening_witness :
    AppliedCall.new (.part (.mk (.fn 0) [.base 1] [.base 9] [("a", .base 1)] []))
        [.base 2, .ellipsis, .base 8] [("a", .base 2)] =
      .ok (.mk (.fn 0) [.base 1, .base 2] [.base 8, .base 9]
            (dictMerge [("a", .base 1)] [("a", .base 2)]) []) := by
  have h := (C3_flattening (.mk (.fn 0) [.base 1] [.base 9] [("a", .base 1)] [])
    [.base 2, .ellipsis, .base 8] [.base 2] [.base 8] [("a", .base 2)] rfl).1
  rw [h]
  rfl

/-- Claim C4: chained placeholder application is equivalent to one-step
construction: `new f [1, ...]` then calling with `[2, ...]` then a final
call with `[3]` invokes the target exactly as `new f [1, 2, 3]` followed
by a call with no arguments. -/
theorem C4_chain_equivalence (f : Value) (hc : isCallableV f = true) :
    ∃ g h2 p,
      AppliedCall.new f [.base 1, .ellipsis] [] = .ok g ∧
      g.call [.base 2, .ellipsis] [] = .ok (.further h2) ∧
      AppliedCall.new f [.base 1, .base 2, .base 3] [] = .ok p ∧
      h2.call [.base 3] [] = p.call [] [] := by
  cases f with
  | fn n => exact ⟨_, _, _, rfl, rfl, rfl, rfl⟩
  | part q =>
    obtain ⟨qf, ql, qr, qk, qd⟩ := q
    refine ⟨_, _, _, rfl, rfl, rfl, ?_⟩
    simp [AppliedCall.call, containsEll, isEllipsis, AppliedCall.func,
      AppliedCall.largs, AppliedCall.rargs, AppliedCall.keywords,
      dictMerge_empty, List.append_assoc]
  | ellipsis => simp [isCallableV] at hc
  | pynone => simp [isCallableV] at hc
  | base n => simp [isCallableV] at hc
  | tuple xs => simp [isCallableV] at hc
  | tupleSub xs => simp [isCallableV] at hc
  | list xs => simp [isCallableV] at hc
  | dictV kvs => simp [isCallableV] at hc
  | dictSub kvs => simp [isCallableV] at hc

/-- Witness for C4: the chain equivalence at a concrete opaque function. -/
theorem C4_chain_equivalence_witness :
    ∃ g h2 p,
      AppliedCall.new (.fn 0) [.base 1, .ellipsis] [] = .ok g ∧
      g.call [.base 2, .ellipsis] [] = .ok (.further h2) ∧
      AppliedCall.new (.fn 0) [.base 1, .base 2, .base 3] [] = .ok p ∧
      h2.call [.base 3] [] = p.call [] [] :=
  C4_chain_equivalence (.fn 0) rfl

/-- Claim C5: an argument list with more than one placeholder makes
construction raise the multiple-placeholders type error, and any call
delegating to construction propagates it; no Applied-Call is produced. -/
theorem C5_multiple_placeholders (args : List Value) (h2 : 2 ≤ countEll args) :
    (∀ func kw, isCallableV func = true →
      AppliedCall.new func args kw = .error .multiplePlaceholders) ∧
    (∀ p kw, AppliedCall.call p args kw = .error .multiplePlaceholders) := by
  have hs := splitArgs_two args h2
  constructor
  · intro func kw hc
    have hnc : isCallableV func = false ↔ False := by simp [hc]
    simp [AppliedCall.new, hnc, hs]
  · intro p kw
    have hcon : containsEll args = true := by
      cases hcf : containsEll args with
      | false =>
        have h0 := (containsEll_false_iff args).mp hcf
        omega
      | true => rfl
    simp [AppliedCall.call, hcon, AppliedCall.new, isCallableV, hs]

/-- Witness for C5: two placeholders in one argument list fail both in
`__new__` and in `__call__`. -/
theorem C5_multiple_placeholders_witness :
    AppliedCall.new (.fn 0) [.ellipsis, .base 1, .ellipsis] [] =
      .error .multiplePlaceholders ∧
    AppliedCall.call (.mk (.fn 0) [] [] [] []) [.ellipsis, .base 1, .ellipsis] [] =
      .error .multiplePlaceholders := by
  have h := C5_multiple_placeholders [.ellipsis, .base 1, .ellipsis] (by decide)
  exact ⟨h.1 (.fn 0) [] rfl, h.2 (.mk (.fn 0) [] [] [] []) []⟩

/-- Claim C6: a non-callable target makes `__new__` raise the
not-callable type error, and a 5-tuple state whose first field is
non-callable makes `__setstate__` raise its invalid-state type error; in
both cases no Applied-Call is produced or modified. -/
theorem C6_not_callable (v : Value) (hnc : isCallableV v = false) :
    (∀ args kw, AppliedCall.new v args kw = .error .notCallable) ∧
    (∀ self l r k n, AppliedCall.setstate self (.tuple [v, l, r, k, n]) =
        .error .invalidState) := by
  constructor
  · intro args kw
    simp [AppliedCall.new, hnc]
  · intro self l r k n
    simp [AppliedCall.setstate, setstateElems, hnc]

/-- Witness for C6: opaque non-callable data is rejected by construction
and by state restoration. -/
theorem C6_not_callable_witness :
    AppliedCall.new (.base 0) [] [] = .error .notCallable ∧
    AppliedCall.setstate (.mk (.fn 0) [] [] [] [])
      (.tuple [.base 0, .tuple [], .tuple [], .pynone, .pynone]) =
      .error .invalidState := by
  have h := C6_not_callable (.base 0) rfl
  exact ⟨h.1 [] [], h.2 (.mk (.fn 0) [] [] [] []) (.tuple []) (.tuple []) .pynone .pynone⟩

/-- Claim C10: only positional arguments are scanned for the placeholder;
a call whose positional arguments are placeholder-free is a final
invocation even when a supplied keyword value is the placeholder, which is
then passed to the target as an ordinary keyword value. -/
theorem C10_keyword_placeholder_ignored (p : AppliedCall) (args : List Value)
    (kw : Dict) (h : containsEll args = false) :
    p.call args kw = .ok (.final p.func (p.largs ++ args ++ p.rargs)
        (dictMerge p.keywords kw)) ∧
    (∀ name, dictLookup kw name = some .ellipsis →
      dictLookup (dictMerge p.keywords kw) name = some .ellipsis) := by
  constructor
  · simp [AppliedCall.call, h]
  · intro name hn
    rw [dictLookup_merge, hn]

/-- Witness for C10: keyword value `a=...` does not trigger further
partial application and reaches the target unchanged. -/
theorem C10_keyword_placeholder_ignored_witness :
    AppliedCall.call (.mk (.fn 0) [] [] [] []) [.base 1] [("a", .ellipsis)] =
      .ok (.final (.fn 0) [.base 1] [("a", .ellipsis)]) ∧
    dictLookup (dictMerge ([] : Dict) [("a", .ellipsis)]) "a" = some .ellipsis := by
  have h := C10_keyword_placeholder_ignored (.mk (.fn 0) [] [] [] [])
    [.base 1] [("a", .ellipsis)] rfl
  exact ⟨by rw [h.1]; rfl, h.2 "a" rfl⟩

/-- Counterexample to claim C7: a 5-tuple state whose `largs`/`rargs`
fields are lists — sequences, but not tuple instances — is rejected by
`__setstate__` with a type error, although the claim says any sequence
type is accepted and coerced. -/
theorem C7_restore_state_counterexample :
    isSequenceInst (.list []) = true ∧
    isCallableV (.fn 0) = true ∧
    AppliedCall.setstate (.mk (.fn 0) [] [] [] [])
      (.tuple [.fn 0, .list [], .list [], .pynone, .pynone]) =
      .error .invalidState := ⟨rfl, rfl, rfl⟩

/-- Claim C7 (amended): `__setstate__` succeeds exactly when the state is
a tuple (or tuple subclass) of exactly 5 elements whose target is
callable, whose `largs`/`rargs` are tuple instances (tuples or tuple
subclasses, coerced to plain tuples), and whose keywords and namespace
are each `None` or a dict instance; every other input fails with a type
error. -/
theorem C7_restore_state_amended (self : AppliedCall) :
    (∀ f l r k n,
      AppliedCall.setstate self (.tuple [f, l, r, k, n]) =
        (if isCallableV f && isTupleInst l && isTupleInst r &&
            isNoneOrDict k && isNoneOrDict n then
          .ok (.mk f (tupleElems l) (tupleElems r) (dictPairs k) (dictPairs n))
        else .error .invalidState)) ∧
    (∀ elems, elems.length ≠ 5 →
      AppliedCall.setstate self (.tuple elems) =
        .error (.stateWrongLen elems.length)) ∧
    (∀ st, isTupleInst st = false →
      AppliedCall.setstate self st = .error .stateNotTuple) := by
  refine ⟨?_, ?_, ?_⟩
  · intro f l r k n
    simp only [AppliedCall.setstate, setstateElems]
    cases hc : isCallableV f <;> cases hl : isTupleInst l <;>
      cases hr : isTupleInst r <;> cases hk : isNoneOrDict k <;>
      cases hn : isNoneOrDict n <;> simp [hc, hl, hr, hk, hn]
  · intro elems hlen
    simp only [AppliedCall.setstate]
    match elems, hlen with
    | [], _ => rfl
    | [_], _ => rfl
    | [_, _], _ => rfl
    | [_, _, _], _ => rfl
    | [_, _, _, _], _ => rfl
    | [_, _, _, _, _], hlen => exact absurd rfl hlen
    | _ :: _ :: _ :: _ :: _ :: _ :: _, _ => rfl
  · intro st hst
    cases st <;> simp_all [isTupleInst, AppliedCall.setstate]

/-- Witness for C7 (amended): a valid state restores with tuple-subclass
coercion; a 1-tuple and a non-tuple are rejected. -/
theorem C7_restore_state_amended_witness :
    AppliedCall.setstate (.mk (.fn 0) [] [] [] [])
      (.tuple [.fn 1, .tupleSub [.base 1], .tuple [], .dictV [("a", .base 2)], .pynone]) =
      .ok (.mk (.fn 1) [.base 1] [] [("a", .base 2)] []) ∧
    AppliedCall.setstate (.mk (.fn 0) [] [] [] []) (.tuple [.fn 1]) =
      .error (.stateWrongLen 1) ∧
    AppliedCall.setstate (.mk (.fn 0) [] [] [] []) (.base 7) =
      .error .stateNotTuple := by
  have h := C7_restore_state_amended (.mk (.fn 0) [] [] [] [])
  refine ⟨?_, ?_, ?_⟩
  · rw [h.1 (.fn 1) (.tupleSub [.base 1]) (.tuple []) (.dictV [("a", .base 2)]) .pynone]
    rfl
  · exact h.2.1 [.fn 1] (by simp)
  · exact h.2.2 (.base 7) rfl

/-- Claim C8: exporting the reconstruction recipe, building the bare
wrapper from the constructor form, then restoring the exported state,
reproduces an Applied-Call with identical target, left and right
arguments, keywords, and auxiliary storage. -/
theorem C8_export_import_roundtrip (p : AppliedCall)
    (hc : isCallableV p.func = true) :
    p.reduce.ctorArgs = [p.func] ∧
    ∃ bare, AppliedCall.new p.func [] [] = .ok bare ∧
      bare.setstate p.reduce.state = .ok p := by
  obtain ⟨f, l, r, k, d⟩ := p
  simp only [AppliedCall.func] at hc
  refine ⟨rfl, ?_⟩
  have hnew : ∃ bare, AppliedCall.new f [] [] = .ok bare := by
    cases f <;> first
      | exact ⟨_, rfl⟩
      | simp [isCallableV] at hc
  obtain ⟨bare, hb⟩ := hnew
  refine ⟨bare, hb, ?_⟩
  have hkp : dictPairs (if (k : Dict).isEmpty then Value.pynone else Value.dictV k) = k := by
    cases hk : (k : Dict).isEmpty with
    | true =>
      rw [List.isEmpty_iff.mp hk]
      rfl
    | false => simp [dictPairs]
  have hkd : isNoneOrDict (if (k : Dict).isEmpty then Value.pynone else Value.dictV k) = true := by
    cases (k : Dict).isEmpty <;> simp [isNoneOrDict]
  have hdp : dictPairs (if (d : Dict).isEmpty then Value.pynone else Value.dictV d) = d := by
    cases hd : (d : Dict).isEmpty with
    | true =>
      rw [List.isEmpty_iff.mp hd]
      rfl
    | false => simp [dictPairs]
  have hdd : isNoneOrDict (if (d : Dict).isEmpty then Value.pynone else Value.dictV d) = true := by
    cases (d : Dict).isEmpty <;> simp [isNoneOrDict]
  simp [AppliedCall.reduce, AppliedCall.setstate, setstateElems,
    AppliedCall.func, AppliedCall.largs, AppliedCall.rargs,
    AppliedCall.keywords, AppliedCall.dict, hc, hkd, hdd, hkp, hdp,
    isTupleInst, tupleElems]

/-- Witness for C8: the round trip at a concrete Applied-Call with
non-empty keywords and empty auxiliary storage. -/
theorem C8_export_import_roundtrip_witness :
    ∃ bare,
      AppliedCall.new (.fn 0) [] [] = .ok bare ∧
      bare.setstate (AppliedCall.reduce
        (.mk (.fn 0) [.base 1] [.base 2] [("a", .base 3)] [])).state =
        .ok (.mk (.fn 0) [.base 1] [.base 2] [("a", .base 3)] []) :=
  (C8_export_import_roundtrip (.mk (.fn 0) [.base 1] [.base 2] [("a", .base 3)] []) rfl).2

/-- Counterexample to claim C9: `__setstate__` checks only that the
restored target is callable, and an Applied-Call is callable, so state
restoration can install an Applied-Call as the target, producing the
nesting that the claim rules out for all reachable instances. -/
theorem C9_never_nested_counterexample :
    AppliedCall.setstate (.mk (.fn 0) [] [] [] [])
      (.tuple [.part (.mk (.fn 0) [] [] [] []), .tuple [], .tuple [], .pynone, .pynone]) =
      .ok (.mk (.part (.mk (.fn 0) [] [] [] [])) [] [] [] []) ∧
    hasFuncAttr (AppliedCall.func
      (.mk (.part (.mk (.fn 0) [] [] [] [])) [] [] [] [])) = true := ⟨rfl, rfl⟩

/-- Claim C9 (amended): every Applied-Call produced by construction or by
further partial application from a target that is not a nested
Applied-Call has a target that is not an Applied-Call; `__setstate__`
does not enforce this invariant. -/
theorem C9_never_nested_amended :
    (∀ func args kw q, AppliedCall.new func args kw = .ok q →
      (∀ inner, func = .part inner → hasFuncAttr inner.func = false) →
      hasFuncAttr q.func = false) ∧
    (∀ (p : AppliedCall) args kw q, hasFuncAttr p.func = false →
      p.call args kw = .ok (.further q) → hasFuncAttr q.func = false) := by
  have hmain : ∀ func args kw q, AppliedCall.new func args kw = .ok q →
      (∀ inner, func = .part inner → hasFuncAttr inner.func = false) →
      hasFuncAttr q.func = false := by
    intro func args kw q hq hinner
    rcases hsp : splitArgs args with e | ⟨l, r⟩
    · cases func <;> simp_all [AppliedCall.new, isCallableV]
    · cases func with
      | part inner =>
        simp only [AppliedCall.new, isCallableV, hsp] at hq
        have hq2 := (Except.ok.injEq _ _).mp hq
        rw [← hq2]
        simpa [AppliedCall.func] using hinner inner rfl
      | fn n =>
        simp only [AppliedCall.new, isCallableV, hsp] at hq
        have hq2 := (Except.ok.injEq _ _).mp hq
        rw [← hq2]
        rfl
      | ellipsis => simp_all [AppliedCall.new, isCallableV]
      | pynone => simp_all [AppliedCall.new, isCallableV]
      | base n => simp_all [AppliedCall.new, isCallableV]
      | tuple xs => simp_all [AppliedCall.new, isCallableV]
      | tupleSub xs => simp_all [AppliedCall.new, isCallableV]
      | list xs => simp_all [AppliedCall.new, isCallableV]
      | dictV kvs => simp_all [AppliedCall.new, isCallableV]
      | dictSub kvs => simp_all [AppliedCall.new, isCallableV]
  refine ⟨hmain, ?_⟩
  intro p args kw q hp hcall
  cases hce : containsEll args with
  | false => simp [AppliedCall.call, hce] at hcall
  | true =>
    simp only [AppliedCall.call, hce, if_true] at hcall
    cases hnew : AppliedCall.new (.part p) args kw with
    | error e => rw [hnew] at hcall; exact absurd hcall (by simp)
    | ok q2 =>
      rw [hnew] at hcall
      have hq2 : q2 = q := by
        have := (Except.ok.injEq _ _).mp hcall
        exact (CallResult.further.injEq _ _).mp this
      subst hq2
      exact hmain (.part p) args kw q2 hnew
        (fun inner hi => by
          have : p = inner := (Value.part.injEq _ _).mp hi
          rw [← this]; exact hp)

/-- Witness for C9 (amended): further application of a well-formed
Applied-Call keeps the target a plain function. -/
theorem C9_never_nested_amended_witness :
    AppliedCall.new (.part (.mk (.fn 0) [.base 1] [] [] [])) [.base 2, .ellipsis] [] =
      .ok (.mk (.fn 0) [.base 1, .base 2] [] [] []) ∧
    hasFuncAttr (Value.fn 0) = false := by
  have h := (C9_never_nested_amended).1 (.part (.mk (.fn 0) [.base 1] [] [] []))
    [.base 2, .ellipsis] [] (.mk (.fn 0) [.base 1, .base 2] [] [] []) rfl
    (fun inner hi => by
      have : (AppliedCall.mk (.fn 0) [.base 1] [] [] []) = inner :=
        (Value.part.injEq _ _).mp hi
      rw [← this]; rfl)
  exact ⟨rfl, h⟩
